import Mathlib

/-!
Verification of the regex_compiler repository.

States and symbols are Python strings, embedded as `String`.  Python sets
become `Finset String`; Python dicts become association lists whose lookup
(`List.lookup`) mirrors `dict.__getitem__` / `dict.get`.  The worklist
traversal of `EpsNFA._eps_closure` (src/automaton/fsm.py) is embedded as
bounded iteration of the one-step saturation function: both compute the least
superset of the input closed under the epsilon relation, and the iteration
bound (`number of possible epsilon targets + 1`) is large enough for the
iteration to reach its fixed point, which is proved below.
-/

namespace RC

/-- One saturation step: add everything `h` produces from the current set. -/
def satStep {α : Type} [DecidableEq α] (h : Finset α → Finset α) (T : Finset α) : Finset α :=
  T ∪ h T

lemma subset_satStep {α : Type} [DecidableEq α] (h : Finset α → Finset α) (T : Finset α) :
    T ⊆ satStep h T :=
  Finset.subset_union_left

lemma satStep_of_subset {α : Type} [DecidableEq α] {h : Finset α → Finset α} {T : Finset α}
    (hh : h T ⊆ T) : satStep h T = T :=
  Finset.union_eq_left.mpr hh

/-- If everything `h` can ever produce lies in the finite set `B`, then after
`(B \ S).card` saturation steps the iteration has reached a fixed point. -/
lemma satStep_iterate_fixed {α : Type} [DecidableEq α] (h : Finset α → Finset α) (B : Finset α)
    (hB : ∀ T, h T ⊆ B) :
    ∀ (n : Nat) (S : Finset α), (B \ S).card ≤ n →
      satStep h ((satStep h)^[n] S) = (satStep h)^[n] S := by
  intro n
  induction n with
  | zero =>
    intro S hS
    simp only [Function.iterate_zero, id_eq]
    have hBS : B ⊆ S := by
      rw [Nat.le_zero, Finset.card_eq_zero, Finset.sdiff_eq_empty_iff_subset] at hS
      exact hS
    exact satStep_of_subset ((hB S).trans hBS)
  | succ n ih =>
    intro S hS
    by_cases hfix : h S ⊆ S
    · have h1 : satStep h S = S := satStep_of_subset hfix
      have h2 : ∀ m, (satStep h)^[m] S = S := fun m => Function.iterate_fixed h1 m
      rw [h2, h1]
    · obtain ⟨x, hxh, hxS⟩ := Finset.not_subset.mp hfix
      have hss : B \ satStep h S ⊂ B \ S := by
        refine ⟨Finset.sdiff_subset_sdiff (Finset.Subset.refl B) (subset_satStep h S), ?_⟩
        intro hcon
        have hx1 : x ∈ B \ S := Finset.mem_sdiff.mpr ⟨hB S hxh, hxS⟩
        have hx2 : x ∈ B \ satStep h S := hcon hx1
        exact (Finset.mem_sdiff.mp hx2).2 (Finset.mem_union_right _ hxh)
      have hcard : (B \ satStep h S).card ≤ n :=
        Nat.lt_succ_iff.mp (lt_of_lt_of_le (Finset.card_lt_card hss) hS)
      rw [Function.iterate_succ_apply]
      exact ih (satStep h S) hcard

/-- The iterate of a saturation step only grows the set. -/
lemma subset_satStep_iterate {α : Type} [DecidableEq α] (h : Finset α → Finset α)
    (n : Nat) (S : Finset α) : S ⊆ (satStep h)^[n] S := by
  induction n with
  | zero => simp
  | succ n ih =>
    rw [Function.iterate_succ_apply']
    exact ih.trans (subset_satStep h _)

/-- A value stored in an association list is contained in the union of all the
list's values (`foldr` of union, mirroring iterating over `dict.values()`). -/
lemma lookup_subset_unionValues {κ γ : Type} [BEq κ] [DecidableEq γ]
    (l : List (κ × Finset γ)) (k : κ) (v : Finset γ)
    (h : List.lookup k l = some v) :
    v ⊆ l.foldr (fun p acc => p.2 ∪ acc) ∅ := by
  induction l with
  | nil => simp [List.lookup] at h
  | cons p rest ih =>
    rw [List.lookup] at h
    cases hk : k == p.1 with
    | true =>
      rw [hk] at h
      simp only [Option.some.injEq] at h
      subst h
      exact Finset.subset_union_left
    | false =>
      rw [hk] at h
      exact (ih h).trans Finset.subset_union_right

/-! ## Executable enumeration of finite sets

Python's `sorted(...)` on a set of strings is embedded as an insertion sort
lifted to `Finset String` (structurally recursive, so concrete instances
evaluate inside the kernel).  The same enumeration stands in for Python's
arbitrary-but-fixed set/dict iteration order wherever a set is iterated. -/

/-- Lexicographic comparison of char lists by code point (the order in which
Python's `sorted` arranges strings); structurally recursive so that concrete
instances reduce inside the kernel. -/
def charLeb : List Char → List Char → Bool
  | [], _ => true
  | _ :: _, [] => false
  | c :: cs, d :: ds => if c < d then true else if d < c then false else charLeb cs ds

/-- String comparison by underlying character data. -/
def strLeb (a b : String) : Bool :=
  charLeb a.data b.data

lemma charLeb_cons_iff (c d : Char) (cs ds : List Char) :
    charLeb (c :: cs) (d :: ds) = true ↔ c < d ∨ (c = d ∧ charLeb cs ds = true) := by
  by_cases hcd : c < d
  · simp [charLeb, hcd]
  · by_cases hdc : d < c
    · simp [charLeb, hcd, hdc]
      intro h
      exact absurd (h ▸ hdc) (lt_irrefl d)
    · have : c = d := le_antisymm (not_lt.mp hdc) (not_lt.mp hcd)
      simp [charLeb, hcd, hdc, this]

lemma charLeb_total (l₁ l₂ : List Char) :
    charLeb l₁ l₂ = true ∨ charLeb l₂ l₁ = true := by
  induction l₁ generalizing l₂ with
  | nil => left; rfl
  | cons c cs ih =>
    cases l₂ with
    | nil => right; rfl
    | cons d ds =>
      rcases lt_trichotomy c d with h | h | h
      · left
        exact (charLeb_cons_iff ..).mpr (Or.inl h)
      · subst h
        rcases ih ds with h2 | h2
        · left
          exact (charLeb_cons_iff ..).mpr (Or.inr ⟨rfl, h2⟩)
        · right
          exact (charLeb_cons_iff ..).mpr (Or.inr ⟨rfl, h2⟩)
      · right
        exact (charLeb_cons_iff ..).mpr (Or.inl h)

lemma charLeb_antisymm (l₁ l₂ : List Char)
    (h₁ : charLeb l₁ l₂ = true) (h₂ : charLeb l₂ l₁ = true) : l₁ = l₂ := by
  induction l₁ generalizing l₂ with
  | nil =>
    cases l₂ with
    | nil => rfl
    | cons d ds => exact absurd h₂ (by simp [charLeb])
  | cons c cs ih =>
    cases l₂ with
    | nil => exact absurd h₁ (by simp [charLeb])
    | cons d ds =>
      rcases (charLeb_cons_iff ..).mp h₁ with h | ⟨hcd, h⟩
      · rcases (charLeb_cons_iff ..).mp h₂ with h2 | ⟨hdc, h2⟩
        · exact absurd (lt_trans h h2) (lt_irrefl c)
        · rw [hdc] at h
          exact absurd h (lt_irrefl c)
      · rcases (charLeb_cons_iff ..).mp h₂ with h2 | ⟨hdc, h2⟩
        · rw [hcd] at h2
          exact absurd h2 (lt_irrefl d)
        · rw [hcd, ih ds h h2]

lemma charLeb_trans (l₁ l₂ l₃ : List Char)
    (h₁ : charLeb l₁ l₂ = true) (h₂ : charLeb l₂ l₃ = true) : charLeb l₁ l₃ = true := by
  induction l₁ generalizing l₂ l₃ with
  | nil => rfl
  | cons c cs ih =>
    cases l₂ with
    | nil => exact absurd h₁ (by simp [charLeb])
    | cons d ds =>
      cases l₃ with
      | nil => exact absurd h₂ (by simp [charLeb])
      | cons e es =>
        rcases (charLeb_cons_iff ..).mp h₁ with h | ⟨rfl, h⟩ <;>
          rcases (charLeb_cons_iff ..).mp h₂ with h2 | ⟨he, h2⟩
        · exact (charLeb_cons_iff ..).mpr (Or.inl (lt_trans h h2))
        · exact (charLeb_cons_iff ..).mpr (Or.inl (he ▸ h))
        · exact (charLeb_cons_iff ..).mpr (Or.inl h2)
        · exact (charLeb_cons_iff ..).mpr (Or.inr ⟨he, ih ds es h h2⟩)

lemma strLeb_total (x y : String) : strLeb x y = true ∨ strLeb y x = true :=
  charLeb_total x.data y.data

lemma strLeb_antisymm {x y : String} (h₁ : strLeb x y = true) (h₂ : strLeb y x = true) :
    x = y := by
  cases x with
  | mk xd =>
    cases y with
    | mk yd =>
      rw [charLeb_antisymm xd yd h₁ h₂]

lemma strLeb_trans {x y z : String} (h₁ : strLeb x y = true) (h₂ : strLeb y z = true) :
    strLeb x z = true :=
  charLeb_trans x.data y.data z.data h₁ h₂

lemma strLeb_of_not {x y : String} (h : ¬ strLeb x y = true) : strLeb y x = true :=
  (strLeb_total x y).resolve_left h

/-- Insert a string into a (sorted) list, keeping order. -/
def insertSorted (x : String) : List String → List String
  | [] => [x]
  | y :: ys => if strLeb x y then x :: y :: ys else y :: insertSorted x ys

/-- Insertion sort. -/
def sortList (l : List String) : List String :=
  l.foldr insertSorted []

lemma insertSorted_comm (x y : String) (l : List String) :
    insertSorted x (insertSorted y l) = insertSorted y (insertSorted x l) := by
  induction l with
  | nil =>
    by_cases hxy : strLeb x y = true <;> by_cases hyx : strLeb y x = true <;>
      simp [insertSorted, hxy, hyx]
    · exact ⟨strLeb_antisymm hxy hyx, strLeb_antisymm hyx hxy⟩
    · exact absurd (strLeb_total x y) (by simp [hxy, hyx])
  | cons z zs ih =>
    by_cases hxz : strLeb x z = true <;> by_cases hyz : strLeb y z = true
    · by_cases hxy : strLeb x y = true <;> by_cases hyx : strLeb y x = true <;>
        simp [insertSorted, hxz, hyz, hxy, hyx]
      · exact ⟨strLeb_antisymm hxy hyx, strLeb_antisymm hyx hxy⟩
      · exact absurd (strLeb_total x y) (by simp [hxy, hyx])
    · have hyx : ¬ strLeb y x = true := fun h => hyz (strLeb_trans h hxz)
      simp [insertSorted, hxz, hyz, hyx]
    · have hxy : ¬ strLeb x y = true := fun h => hxz (strLeb_trans h hyz)
      simp [insertSorted, hxz, hyz, hxy]
    · simp [insertSorted, hxz, hyz, ih]

lemma sortList_cons (x : String) (l : List String) :
    sortList (x :: l) = insertSorted x (sortList l) := rfl

lemma sortList_perm_eq {l₁ l₂ : List String} (h : l₁.Perm l₂) :
    sortList l₁ = sortList l₂ := by
  induction h with
  | nil => rfl
  | cons x _ ih => rw [sortList_cons, sortList_cons, ih]
  | swap x y l => rw [sortList_cons, sortList_cons, sortList_cons, sortList_cons,
      insertSorted_comm]
  | trans _ _ ih₁ ih₂ => rw [ih₁, ih₂]

/-- Enumerate a `Finset String` as a sorted list (computable counterpart of
Python's `sorted(s)`). -/
def sortFinset (S : Finset String) : List String :=
  Quot.liftOn S.val sortList (fun _ _ h => sortList_perm_eq h)

lemma mem_insertSorted (x y : String) (l : List String) :
    y ∈ insertSorted x l ↔ y = x ∨ y ∈ l := by
  induction l with
  | nil => simp [insertSorted]
  | cons z zs ih =>
    by_cases hxz : strLeb x z = true
    · simp [insertSorted, hxz]
    · simp only [insertSorted, if_neg hxz, List.mem_cons, ih]
      tauto

lemma mem_sortList (y : String) (l : List String) : y ∈ sortList l ↔ y ∈ l := by
  induction l with
  | nil => simp [sortList]
  | cons x xs ih =>
    rw [sortList_cons, mem_insertSorted, ih, List.mem_cons]

lemma mem_sortFinset (y : String) (S : Finset String) : y ∈ sortFinset S ↔ y ∈ S := by
  obtain ⟨m, nd⟩ := S
  revert nd
  refine Quot.inductionOn m ?_
  intro l nd
  show y ∈ sortList l ↔ _
  rw [mem_sortList]
  rfl

lemma nodup_insertSorted (x : String) (l : List String) (hl : l.Nodup) (hx : x ∉ l) :
    (insertSorted x l).Nodup := by
  induction l with
  | nil => simp [insertSorted]
  | cons z zs ih =>
    by_cases hxz : strLeb x z = true
    · rw [insertSorted, if_pos hxz]
      exact List.nodup_cons.mpr ⟨hx, hl⟩
    · rw [insertSorted, if_neg hxz]
      have hz : z ∉ zs := (List.nodup_cons.mp hl).1
      have hxzs : x ∉ zs := fun h => hx (List.mem_cons_of_mem z h)
      refine List.nodup_cons.mpr ⟨?_, ih (List.nodup_cons.mp hl).2 hxzs⟩
      rw [mem_insertSorted]
      rintro (rfl | h)
      · exact hx (List.mem_cons_self z zs)
      · exact hz h

lemma nodup_sortList (l : List String) (hl : l.Nodup) : (sortList l).Nodup := by
  induction l with
  | nil => simp [sortList]
  | cons x xs ih =>
    rw [sortList_cons]
    refine nodup_insertSorted x _ (ih (List.nodup_cons.mp hl).2) ?_
    rw [mem_sortList]
    exact (List.nodup_cons.mp hl).1

lemma sortFinset_nodup (S : Finset String) : (sortFinset S).Nodup := by
  obtain ⟨m, nd⟩ := S
  revert nd
  refine Quot.inductionOn m ?_
  intro l nd
  exact nodup_sortList l nd

/-! ## The automaton data model (src/automaton/fsm.py) -/

/-- Embeds `DFA` from src/automaton/fsm.py: `TRANSITIONS` maps `(state, symbol)` to a
single state; embedded as an association list. -/
structure DFA where
  states : Finset String
  alphabet : Finset String
  initial : String
  accepting : Finset String
  trans : List ((String × String) × String)

/-- Embeds `NFA` from src/automaton/fsm.py: `TRANSITIONS` maps `(state, symbol)` to a
set of states. -/
structure NFA where
  states : Finset String
  alphabet : Finset String
  initial : String
  accepting : Finset String
  trans : List ((String × String) × Finset String)

/-- Embeds `EpsNFA` from src/automaton/fsm.py: an NFA together with the
`EPS_TRANSITIONS` map from states to sets of states. -/
structure EpsNFA where
  states : Finset String
  alphabet : Finset String
  initial : String
  accepting : Finset String
  trans : List ((String × String) × Finset String)
  epsTrans : List (String × Finset String)

/-- Embeds `NFA._delta`: `self.TRANSITIONS.get((state, symbol), set())` — a missing
entry yields the empty set. -/
def NFA.delta (M : NFA) (s a : String) : Finset String :=
  (List.lookup (s, a) M.trans).getD ∅

/-- Embeds `NFA._next_states`: union of `_delta` over the current state set. -/
def NFA.nextStates (M : NFA) (S : Finset String) (a : String) : Finset String :=
  S.biUnion (fun s => M.delta s a)

/-- Embeds `NFA.accepts`: fold `_next_states` over the word from `{INITIAL_STATE}`
and test intersection with `ACCEPTING_STATES`. -/
def NFA.accepts (M : NFA) (w : List String) : Bool :=
  decide (M.accepting ∩ w.foldl M.nextStates {M.initial}).Nonempty

/-- Embeds `EpsNFA._delta` (inherited from `NFA`). -/
def EpsNFA.delta (M : EpsNFA) (s a : String) : Finset String :=
  (List.lookup (s, a) M.trans).getD ∅

/-- Embeds `EpsNFA._eps_delta`: `self.EPS_TRANSITIONS.get(state, set())`. -/
def EpsNFA.epsDelta (M : EpsNFA) (s : String) : Finset String :=
  (List.lookup s M.epsTrans).getD ∅

/-- The union of all target sets stored in `EPS_TRANSITIONS` — a bound on what
epsilon saturation can ever add. -/
def EpsNFA.epsTargets (M : EpsNFA) : Finset String :=
  M.epsTrans.foldr (fun p acc => p.2 ∪ acc) ∅

/-- Embeds `EpsNFA._eps_closure`: the source saturates the input set with a
worklist/stack; embedded as bounded iteration of the saturation step, with
enough steps (`epsTargets.card + 1`) to reach the same least fixed point. -/
def EpsNFA.epsClosure (M : EpsNFA) (S : Finset String) : Finset String :=
  (satStep (fun T => T.biUnion M.epsDelta))^[M.epsTargets.card + 1] S

lemma epsDelta_subset_epsTargets (M : EpsNFA) (s : String) :
    M.epsDelta s ⊆ M.epsTargets := by
  unfold EpsNFA.epsDelta
  cases hl : List.lookup s M.epsTrans with
  | none => simp
  | some v =>
    simp only [Option.getD_some]
    exact lookup_subset_unionValues M.epsTrans s v hl

lemma epsStep_bounded (M : EpsNFA) (T : Finset String) :
    T.biUnion M.epsDelta ⊆ M.epsTargets :=
  Finset.biUnion_subset.mpr (fun s _ => epsDelta_subset_epsTargets M s)

/-- The computed epsilon closure is a fixed point of the saturation step. -/
lemma epsClosure_fixed (M : EpsNFA) (S : Finset String) :
    satStep (fun T => T.biUnion M.epsDelta) (M.epsClosure S) = M.epsClosure S := by
  have h1 := satStep_iterate_fixed (fun T => T.biUnion M.epsDelta) M.epsTargets
    (epsStep_bounded M) M.epsTargets.card S
    (Finset.card_le_card (Finset.sdiff_subset))
  unfold EpsNFA.epsClosure
  rw [Function.iterate_succ_apply', h1]
  exact h1

lemma subset_epsClosure (M : EpsNFA) (S : Finset String) : S ⊆ M.epsClosure S :=
  subset_satStep_iterate _ _ S

/-- Embeds `EpsNFA._get_initial_state_set`: the closure of `{INITIAL_STATE}`. -/
def EpsNFA.initialStateSet (M : EpsNFA) : Finset String :=
  M.epsClosure {M.initial}

/-- Embeds `EpsNFA._next_states`: epsilon-close the current set, step by the symbol,
then epsilon-close the result. -/
def EpsNFA.nextStates (M : EpsNFA) (S : Finset String) (a : String) : Finset String :=
  M.epsClosure ((M.epsClosure S).biUnion (fun s => M.delta s a))

/-- Embeds `EpsNFA.accepts` (the `NFA.accepts` fold with the overridden helpers). -/
def EpsNFA.accepts (M : EpsNFA) (w : List String) : Bool :=
  decide (M.accepting ∩ w.foldl M.nextStates M.initialStateSet).Nonempty

/-- C8: for every `EpsNFA` and every set of states `S`, applying
`_eps_closure` to an already-closed set returns the same set:
`_eps_closure(_eps_closure(S)) = _eps_closure(S)`. -/
theorem c8_epsClosure_idempotent (M : EpsNFA) (S : Finset String) :
    M.epsClosure (M.epsClosure S) = M.epsClosure S :=
  Function.iterate_fixed (epsClosure_fixed M S) (M.epsTargets.card + 1)

/-! ## Association-table construction

Python's `dict` comprehensions over a domain of key pairs are embedded as
`tableOf`, which enumerates the key pairs in a fixed (sorted) order; lookup
semantics agree because dict keys are unique. -/

/-- Build an association list keyed by pairs from `ss × ts`, skipping pairs on
which `f` yields `none` (mirrors a dict comprehension with a `continue`). -/
def tableOf {σ τ γ : Type} (ss : List σ) (ts : List τ) (f : σ → τ → Option γ) :
    List ((σ × τ) × γ) :=
  ss.flatMap (fun s => ts.filterMap (fun a => (f s a).map (fun v => ((s, a), v))))

lemma lookup_append {κ β : Type} [BEq κ] (l₁ l₂ : List (κ × β)) (k : κ) :
    List.lookup k (l₁ ++ l₂) =
      match List.lookup k l₁ with
      | some v => some v
      | none => List.lookup k l₂ := by
  induction l₁ with
  | nil => simp [List.lookup]
  | cons p rest ih =>
    rw [List.cons_append, List.lookup, List.lookup]
    cases hk : k == p.1
    · exact ih
    · rfl

lemma lookup_block {σ τ γ : Type} [DecidableEq σ] [DecidableEq τ]
    (s₀ : σ) (ts : List τ) (f : τ → Option γ) (s : σ) (a : τ) (hts : ts.Nodup) :
    List.lookup (s, a) (ts.filterMap (fun b => (f b).map (fun v => ((s₀, b), v)))) =
      if s = s₀ ∧ a ∈ ts then f a else none := by
  induction ts with
  | nil => simp [List.lookup]
  | cons b rest ih =>
    have hbrest : b ∉ rest := (List.nodup_cons.mp hts).1
    have hrest : rest.Nodup := (List.nodup_cons.mp hts).2
    cases hfb : f b with
    | none =>
      rw [List.filterMap_cons, hfb, Option.map_none']
      rw [ih hrest]
      by_cases hs : s = s₀
      · by_cases hab : a = b
        · subst hab
          simp [hs, hfb, fun h => hbrest h]
        · simp only [List.mem_cons]
          by_cases har : a ∈ rest <;> simp [hs, har, hab]
      · simp [hs]
    | some v =>
      rw [List.filterMap_cons, hfb, Option.map_some']
      rw [List.lookup]
      by_cases hkey : (s, a) = (s₀, b)
      · rw [beq_iff_eq.mpr hkey]
        have hs : s = s₀ := congrArg Prod.fst hkey
        have hab : a = b := congrArg Prod.snd hkey
        simp [hs, hab, hfb]
      · rw [beq_eq_false_iff_ne.mpr hkey]
        rw [ih hrest]
        by_cases hs : s = s₀
        · by_cases hab : a = b
          · exact absurd (by rw [hs, hab]) hkey
          · simp only [List.mem_cons]
            by_cases har : a ∈ rest <;> simp [hs, har, hab]
        · simp [hs]

lemma tableOf_lookup {σ τ γ : Type} [DecidableEq σ] [DecidableEq τ]
    (ss : List σ) (ts : List τ) (f : σ → τ → Option γ)
    (hss : ss.Nodup) (hts : ts.Nodup) (s : σ) (a : τ) :
    List.lookup (s, a) (tableOf ss ts f) =
      if s ∈ ss ∧ a ∈ ts then f s a else none := by
  induction ss with
  | nil => simp [tableOf, List.lookup]
  | cons s₀ rest ih =>
    have hsrest : s₀ ∉ rest := (List.nodup_cons.mp hss).1
    have hrest : rest.Nodup := (List.nodup_cons.mp hss).2
    rw [tableOf, List.flatMap_cons, lookup_append]
    rw [show (rest.flatMap fun s => ts.filterMap fun a => (f s a).map fun v => ((s, a), v)) =
      tableOf rest ts f from rfl]
    rw [lookup_block s₀ ts (f s₀) s a hts, ih hrest]
    by_cases hs : s = s₀
    · subst hs
      by_cases hat : a ∈ ts
      · simp only [hat, and_true, if_pos rfl, List.mem_cons, true_or, if_pos]
        cases hfa : f s a with
        | none => simp [fun h => hsrest h]
        | some v => simp
      · simp [hat]
    · by_cases hsr : s ∈ rest <;> simp [hs, hsr]

lemma tableOf_mem_key {σ τ γ : Type} {ss : List σ} {ts : List τ} {f : σ → τ → Option γ}
    {s : σ} {a : τ} {v : γ} (h : ((s, a), v) ∈ tableOf ss ts f) :
    s ∈ ss ∧ a ∈ ts ∧ f s a = some v := by
  obtain ⟨s', hs', hmem⟩ := List.mem_flatMap.mp h
  obtain ⟨a', ha', hmap⟩ := List.mem_filterMap.mp hmem
  obtain ⟨v', hv', heq⟩ := Option.map_eq_some'.mp hmap
  injection heq with hkey hval
  injection hkey with hs ha
  subst hs
  subst ha
  subst hval
  exact ⟨hs', ha', hv'⟩

lemma tableOf_mem_of {σ τ γ : Type} {ss : List σ} {ts : List τ} {f : σ → τ → Option γ}
    {s : σ} {a : τ} {v : γ} (hs : s ∈ ss) (ha : a ∈ ts) (hf : f s a = some v) :
    ((s, a), v) ∈ tableOf ss ts f := by
  refine List.mem_flatMap.mpr ⟨s, hs, List.mem_filterMap.mpr ⟨a, ha, ?_⟩⟩
  rw [hf, Option.map_some']

/-! ## Epsilon elimination (src/automaton/convert.py, `convert_to_nfa`) -/

lemma epsClosure_empty (M : EpsNFA) : M.epsClosure ∅ = ∅ := by
  unfold EpsNFA.epsClosure
  apply Function.iterate_fixed
  simp [satStep]

lemma epsClosure_nonempty_iff (M : EpsNFA) (S : Finset String) :
    (M.epsClosure S).Nonempty ↔ S.Nonempty := by
  constructor
  · intro h
    by_contra hS
    rw [Finset.not_nonempty_iff_eq_empty] at hS
    subst hS
    rw [epsClosure_empty] at h
    exact Finset.not_nonempty_empty h
  · intro h
    exact h.mono (subset_epsClosure M S)

/-- Embeds `convert_to_nfa` from src/automaton/convert.py.  Per-state closures,
accepting states whose closure meets the accepting set, and a transition
table over `STATES × ALPHABET` where an entry is kept only if the
epsilon-closed successor union is non-empty (the source first skips an empty
`reachable` via `continue`, then tests `closure_reachable`). -/
def convert_to_nfa (M : EpsNFA) : NFA :=
  { states := M.states
    alphabet := M.alphabet
    initial := M.initial
    accepting := M.states.filter (fun s => ((M.epsClosure {s}) ∩ M.accepting).Nonempty)
    trans := tableOf (sortFinset M.states) (sortFinset M.alphabet)
      (fun s a =>
        let reachable := (M.epsClosure {s}).biUnion (fun q => M.delta q a)
        if reachable.Nonempty then
          (if (M.epsClosure reachable).Nonempty then some (M.epsClosure reachable) else none)
        else none) }

/-- C4: `convert_to_nfa` keeps the original state set (nothing pruned), the
alphabet and the initial state; its accepting states are exactly the states
whose epsilon-closure meets the original accepting set; and its transition
map has an entry at `(s, a)` (for `s` in the state set and `a` in the
alphabet — and only for such pairs) exactly when the epsilon-closure of the
union of ordinary targets over the closure of `s` is non-empty, the entry's
value being that closure. -/
theorem c4_convert_to_nfa_shape (M : EpsNFA) :
    (convert_to_nfa M).states = M.states ∧
    (convert_to_nfa M).alphabet = M.alphabet ∧
    (convert_to_nfa M).initial = M.initial ∧
    (∀ s, s ∈ (convert_to_nfa M).accepting ↔
        s ∈ M.states ∧ ((M.epsClosure {s}) ∩ M.accepting).Nonempty) ∧
    (∀ s a, s ∈ M.states → a ∈ M.alphabet →
        List.lookup (s, a) (convert_to_nfa M).trans =
          (if (M.epsClosure ((M.epsClosure {s}).biUnion (fun q => M.delta q a))).Nonempty
           then some (M.epsClosure ((M.epsClosure {s}).biUnion (fun q => M.delta q a)))
           else none)) ∧
    (∀ s a v, ((s, a), v) ∈ (convert_to_nfa M).trans → s ∈ M.states ∧ a ∈ M.alphabet) := by
  refine ⟨rfl, rfl, rfl, fun s => Finset.mem_filter, ?_, ?_⟩
  · intro s a hs ha
    show List.lookup (s, a) (tableOf _ _ _) = _
    rw [tableOf_lookup _ _ _ (sortFinset_nodup _) (sortFinset_nodup _) s a]
    rw [if_pos ⟨(mem_sortFinset _ _).mpr hs, (mem_sortFinset _ _).mpr ha⟩]
    simp only []
    by_cases hr : ((M.epsClosure {s}).biUnion (fun q => M.delta q a)).Nonempty
    · rw [if_pos hr]
    · rw [if_neg hr, if_neg]
      rw [epsClosure_nonempty_iff]
      exact hr
  · intro s a v hmem
    have h := tableOf_mem_key hmem
    exact ⟨(mem_sortFinset _ _).mp h.1, (mem_sortFinset _ _).mp h.2.1⟩

/-! ## DFA acceptance (src/automaton/fsm.py, class `DFA`) -/

/-- Embeds `DFA.accepts`: `reduce(self._delta, word, self.INITIAL_STATE) in
self.ACCEPTING_STATES`, where `DFA._delta` indexes `TRANSITIONS[(state,
symbol)]` and raises a lookup failure on a missing key.  The raising lookup
is embedded as `Option`, the `reduce` as `foldlM`; a `none` result is the
propagated lookup failure, never a rejection. -/
def DFA.accepts (M : DFA) (w : List String) : Option Bool :=
  (w.foldlM (fun s a => List.lookup (s, a) M.trans) M.initial).map
    (fun s => decide (s ∈ M.accepting))

/-- Step-by-step run of a DFA: follow one transition per symbol, failing as
soon as a `(state, symbol)` pair has no entry. -/
def DFA.run (M : DFA) : String → List String → Option String
  | s, [] => some s
  | s, a :: w =>
    match List.lookup (s, a) M.trans with
    | none => none
    | some t => M.run t w

lemma foldlM_eq_run (M : DFA) :
    ∀ (w : List String) (s : String),
      w.foldlM (fun s a => List.lookup (s, a) M.trans) s = M.run s w := by
  intro w
  induction w with
  | nil => intro s; rfl
  | cons a w ih =>
    intro s
    rw [List.foldlM_cons, DFA.run]
    cases h : List.lookup (s, a) M.trans with
    | none => rfl
    | some t => exact ih t

/-- C7: `DFA.accepts` folds the transition function over the word from the
initial state; when every step finds an entry it returns whether the final
state is accepting, and when any step reaches a missing `(state, symbol)`
entry it propagates the lookup failure (`none`), never turning it into a
rejection (`some false`). -/
theorem c7_dfa_accepts_run (M : DFA) (w : List String) :
    M.accepts w = (M.run M.initial w).map (fun s => decide (s ∈ M.accepting)) ∧
    (M.accepts w = none ↔ M.run M.initial w = none) := by
  have h : M.accepts w = (M.run M.initial w).map (fun s => decide (s ∈ M.accepting)) := by
    unfold DFA.accepts
    rw [foldlM_eq_run]
  refine ⟨h, ?_⟩
  rw [h]
  cases M.run M.initial w <;> simp

/-! ## Subset construction (src/automaton/convert.py, `convert_to_dfa`) -/

/-- Embeds `collapse_state`: label of a set of NFA states,
`"{" + ",".join(sorted(states)) + "}"`. -/
def collapse (S : Finset String) : String :=
  "\x7b" ++ String.intercalate "," (sortFinset S) ++ "\x7d"

/-- Successor set of a set of NFA states under one symbol:
`frozenset(q for p in state_set for q in nfa._delta(p, symbol))`. -/
def NFA.succSet (M : NFA) (S : Finset String) (a : String) : Finset String :=
  S.biUnion (fun s => M.delta s a)

/-- Union of all target sets stored in `TRANSITIONS` — every successor set is
one of its subsets, bounding the worklist. -/
def NFA.transValues (M : NFA) : Finset String :=
  M.trans.foldr (fun p acc => p.2 ∪ acc) ∅

/-- One round of the subset-construction worklist at the list level: append
all successor sets of currently discovered sets that are not yet discovered
(`mapping.get(new_set)` missing in the source). -/
def NFA.stepList (M : NFA) (L : List (Finset String)) : List (Finset String) :=
  L ++ (L.flatMap (fun S => (sortFinset M.alphabet).map (fun a => M.succSet S a))).filter
    (fun S => decide (S ∉ L))

/-- All sets of NFA states discovered by the subset-construction worklist,
starting from `{initial}`.  The source's stack traversal is embedded as
bounded iteration of `stepList`; the bound (`2 ^ |possible targets| + 1`
rounds) suffices to reach the worklist's fixed point, proved below. -/
def NFA.reachList (M : NFA) : List (Finset String) :=
  (M.stepList)^[M.transValues.powerset.card + 1] [{M.initial}]

lemma delta_subset_transValues (M : NFA) (s a : String) :
    M.delta s a ⊆ M.transValues := by
  unfold NFA.delta
  cases hl : List.lookup (s, a) M.trans with
  | none => simp
  | some v =>
    simp only [Option.getD_some]
    exact lookup_subset_unionValues M.trans (s, a) v hl

lemma succSet_subset_transValues (M : NFA) (S : Finset String) (a : String) :
    M.succSet S a ⊆ M.transValues :=
  Finset.biUnion_subset.mpr (fun s _ => delta_subset_transValues M s a)

/-- The `Finset`-level saturation function matching `stepList`. -/
def NFA.reachStep (M : NFA) (R : Finset (Finset String)) : Finset (Finset String) :=
  R.biUnion (fun S => M.alphabet.image (M.succSet S))

lemma stepList_coherent (M : NFA) (L : List (Finset String)) :
    (M.stepList L).toFinset = satStep M.reachStep L.toFinset := by
  ext T
  simp only [NFA.stepList, List.toFinset_append, List.mem_toFinset, Finset.mem_union,
    List.mem_filter, List.mem_flatMap, List.mem_map, satStep, NFA.reachStep,
    Finset.mem_biUnion, Finset.mem_image, mem_sortFinset, decide_eq_true_eq]
  by_cases hT : T ∈ L
  · simp [hT]
  · simp [hT]

lemma reachList_coherent (M : NFA) (n : Nat) (L : List (Finset String)) :
    ((M.stepList)^[n] L).toFinset = (satStep M.reachStep)^[n] L.toFinset := by
  induction n with
  | zero => rfl
  | succ n ih =>
    rw [Function.iterate_succ_apply', Function.iterate_succ_apply',
      stepList_coherent, ih]

lemma reachStep_bounded (M : NFA) (R : Finset (Finset String)) :
    M.reachStep R ⊆ M.transValues.powerset := by
  intro T hT
  obtain ⟨S, _, hT⟩ := Finset.mem_biUnion.mp hT
  obtain ⟨a, _, hTa⟩ := Finset.mem_image.mp hT
  subst hTa
  exact Finset.mem_powerset.mpr (succSet_subset_transValues M S a)

/-- The discovered collection is saturated: stepping it again finds nothing
new (the worklist has run to completion). -/
lemma reachList_fixed (M : NFA) :
    satStep M.reachStep (M.reachList).toFinset = (M.reachList).toFinset := by
  unfold NFA.reachList
  rw [reachList_coherent]
  have h1 := satStep_iterate_fixed M.reachStep M.transValues.powerset
    (reachStep_bounded M) M.transValues.powerset.card ([{M.initial}] : List (Finset String)).toFinset
    (Finset.card_le_card (Finset.sdiff_subset))
  rw [Function.iterate_succ_apply', h1]
  exact h1

lemma initial_mem_reachList (M : NFA) : ({M.initial} : Finset String) ∈ M.reachList := by
  have h : ({M.initial} : Finset String) ∈ ([{M.initial}] : List (Finset String)).toFinset := by
    simp
  refine List.mem_toFinset.mp ?_
  unfold NFA.reachList
  rw [reachList_coherent]
  exact subset_satStep_iterate M.reachStep _ _ h

lemma succ_mem_reachList (M : NFA) {S : Finset String} {a : String}
    (hS : S ∈ M.reachList) (ha : a ∈ M.alphabet) : M.succSet S a ∈ M.reachList := by
  have hmem : M.succSet S a ∈ M.reachStep (M.reachList).toFinset :=
    Finset.mem_biUnion.mpr ⟨S, List.mem_toFinset.mpr hS,
      Finset.mem_image.mpr ⟨a, ha, rfl⟩⟩
  have hsub : M.reachStep (M.reachList).toFinset ⊆ (M.reachList).toFinset :=
    Finset.union_eq_left.mp (reachList_fixed M)
  exact List.mem_toFinset.mp (hsub hmem)

/-- Embeds `convert_to_dfa` from src/automaton/convert.py.  The worklist seeds
`mapping` with the initial set `{initial}` before the loop; inside the loop a
set is tested against the accepting set only when it is newly discovered, so
the pre-seeded initial set is never tested — the embedding's accepting set
therefore excludes `{initial}` exactly as the source does.  A transition is
recorded for every processed set and every alphabet symbol, regardless of
the successor's emptiness. -/
def convert_to_dfa (M : NFA) : DFA :=
  { states := (M.reachList.map collapse).toFinset
    alphabet := M.alphabet
    initial := collapse {M.initial}
    accepting := ((M.reachList.filter
        (fun S => decide (S ≠ {M.initial} ∧ (S ∩ M.accepting).Nonempty))).map collapse).toFinset
    trans := M.reachList.flatMap
      (fun S => (sortFinset M.alphabet).map
        (fun a => ((collapse S, a), collapse (M.succSet S a)))) }

/-- C5: every DFA state produced by `convert_to_dfa` is the label of a
discovered set of NFA states, and for every such state and every alphabet
symbol the transition map has an entry, whose target (the label of the
successor set, the label `"{}"` of the empty set when the successor set is
empty) is again a DFA state — the produced DFA is total over its alphabet. -/
theorem c5_convert_to_dfa_total (M : NFA) :
    (∀ d ∈ (convert_to_dfa M).states, ∀ a ∈ M.alphabet,
      ∃ S ∈ M.reachList, d = collapse S ∧
        ((d, a), collapse (M.succSet S a)) ∈ (convert_to_dfa M).trans ∧
        collapse (M.succSet S a) ∈ (convert_to_dfa M).states) ∧
    collapse (∅ : Finset String) = "\x7b\x7d" := by
  constructor
  · intro d hd a ha
    obtain ⟨S, hS, hdS⟩ := List.mem_map.mp (List.mem_toFinset.mp hd)
    refine ⟨S, hS, hdS.symm, ?_, ?_⟩
    · subst hdS
      exact List.mem_flatMap.mpr ⟨S, hS,
        List.mem_map.mpr ⟨a, (mem_sortFinset _ _).mpr ha, rfl⟩⟩
    · exact List.mem_toFinset.mpr
        (List.mem_map.mpr ⟨M.succSet S a, succ_mem_reachList M hS ha, rfl⟩)
  · rfl

/-! ## Totality of nondeterministic acceptance (C10) -/

/-- C10: `NFA.accepts` and `EpsNFA.accepts` are total — on every word,
including words with symbols outside the alphabet, they return a boolean
(never a lookup failure), because a missing `(state, symbol)` entry
contributes the empty set of successors via `dict.get((s, a), set())`. -/
theorem c10_nfa_accepts_total (M : NFA) (E : EpsNFA) (w : List String) (s a : String) :
    (M.accepts w = true ∨ M.accepts w = false) ∧
    (List.lookup (s, a) M.trans = none → M.delta s a = ∅) ∧
    (E.accepts w = true ∨ E.accepts w = false) ∧
    (List.lookup (s, a) E.trans = none → E.delta s a = ∅) := by
  refine ⟨Bool.eq_false_or_eq_true (M.accepts w), ?_,
    Bool.eq_false_or_eq_true (E.accepts w), ?_⟩
  · intro h
    simp [NFA.delta, h]
  · intro h
    simp [EpsNFA.delta, h]

/-! ## Thompson construction (src/automaton/fsm.py class methods and
src/regex/to_epsnfa.py)

`EpsNFA._id_counter` is a class variable incremented by `_fresh_state`; the
embedding threads the counter explicitly through every construction. -/

/-- Embeds `EpsNFA._fresh_state`: bump the counter and return `f"{base}{counter}"`. -/
def freshState (base : String) (c : Nat) : String × Nat :=
  (base ++ toString (c + 1), c + 1)

/-- Assign fresh names to a list of states in order (the dict comprehension
`{s: cls._fresh_state(prefix) for s in nfa.STATES}`, iterating the state set
in the embedding's sorted order). -/
def freshNames (pfx : String) : List String → Nat → List (String × String) × Nat
  | [], c => ([], c)
  | s :: rest, c =>
    let f := freshState pfx c
    let r := freshNames pfx rest f.2
    ((s, f.1) :: r.1, r.2)

/-- Apply a renaming map (`mapping[s]`; total on the automaton's states). -/
def applyRen (m : List (String × String)) (s : String) : String :=
  (List.lookup s m).getD s

/-- Embeds `EpsNFA._rename_states`: fresh names for every state, transitions and
epsilon transitions carried over through the renaming. -/
def EpsNFA.renameStates (M : EpsNFA) (pfx : String) (c : Nat) :
    List (String × String) × EpsNFA × Nat :=
  let fm := freshNames pfx (sortFinset M.states) c
  let ren := applyRen fm.1
  (fm.1,
   { states := M.states.image ren
     alphabet := M.alphabet
     initial := ren M.initial
     accepting := M.accepting.image ren
     trans := M.trans.map (fun p => ((ren p.1.1, p.1.2), p.2.image ren))
     epsTrans := M.epsTrans.map (fun p => (ren p.1, p.2.image ren)) },
   fm.2)

/-- Embeds `EpsNFA.from_symbol`: two fresh states, one transition, second state
accepting. -/
def EpsNFA.fromSymbol (a : String) (c : Nat) : EpsNFA × Nat :=
  let i := freshState "symbol" c
  let f := freshState "symbol" i.2
  ({ states := {i.1, f.1}
     alphabet := {a}
     initial := i.1
     accepting := {f.1}
     trans := [((i.1, a), {f.1})]
     epsTrans := [] }, f.2)

/-- Embeds `EpsNFA.star`: rename the operand, add a fresh initial-and-accepting
state `s`.  The source's epsilon dict is
`{**{q: targets | {s} for q, targets in operand.EPS_TRANSITIONS.items()},
**{q: {s} for q in operand.ACCEPTING_STATES}, s: {operand.INITIAL_STATE}}`;
later entries override earlier ones, so the association list carries the
later dicts first (lookup takes the first match). -/
def EpsNFA.star (M : EpsNFA) (c : Nat) : EpsNFA × Nat :=
  let r := M.renameStates "star" c
  let op := r.2.1
  let f := freshState "star" r.2.2
  let s := f.1
  ({ states := insert s op.states
     alphabet := op.alphabet
     initial := s
     accepting := {s}
     trans := op.trans
     epsTrans := (s, ({op.initial} : Finset String)) ::
       ((sortFinset op.accepting).map (fun q => (q, ({s} : Finset String))) ++
        op.epsTrans.map (fun p => (p.1, p.2 ∪ {s}))) }, f.2)

/-- Embeds `EpsNFA.concat`: rename both operands, epsilon-link accepting states of
the left to the right's initial state via `merge_eps` over
`lhs.ACCEPTING_STATES | lhs.EPS_TRANSITIONS.keys() | rhs.EPS_TRANSITIONS.keys()`.
`lhs.TRANSITIONS | rhs.TRANSITIONS` gives `rhs` precedence, so `rhs.trans`
comes first in the association list. -/
def EpsNFA.concat (l r : EpsNFA) (c : Nat) : EpsNFA × Nat :=
  let rl := l.renameStates "concat_lhs" c
  let lhs := rl.2.1
  let rr := r.renameStates "concat_rhs" rl.2.2
  let rhs := rr.2.1
  let keys := lhs.accepting ∪ (lhs.epsTrans.map Prod.fst).toFinset ∪
    (rhs.epsTrans.map Prod.fst).toFinset
  let mergeEps := fun s =>
    (if s ∈ lhs.accepting then ({rhs.initial} : Finset String) else ∅) ∪
      ((List.lookup s lhs.epsTrans).getD ∅) ∪ ((List.lookup s rhs.epsTrans).getD ∅)
  ({ states := lhs.states ∪ rhs.states
     alphabet := lhs.alphabet ∪ rhs.alphabet
     initial := lhs.initial
     accepting := rhs.accepting
     trans := rhs.trans ++ lhs.trans
     epsTrans := (sortFinset keys).map (fun s => (s, mergeEps s)) }, rr.2.2)

/-- Embeds `EpsNFA.union`: rename both operands, fresh initial state with epsilon
edges to both sub-initials; `{s: ...} | lhs.EPS | rhs.EPS` gives `rhs`
precedence, then `lhs`, then the fresh entry. -/
def EpsNFA.union (l r : EpsNFA) (c : Nat) : EpsNFA × Nat :=
  let rl := l.renameStates "union_lhs" c
  let lhs := rl.2.1
  let rr := r.renameStates "union_rhs" rl.2.2
  let rhs := rr.2.1
  let f := freshState "union" rr.2.2
  let s := f.1
  ({ states := insert s (lhs.states ∪ rhs.states)
     alphabet := lhs.alphabet ∪ rhs.alphabet
     initial := s
     accepting := lhs.accepting ∪ rhs.accepting
     trans := rhs.trans ++ lhs.trans
     epsTrans := rhs.epsTrans ++ lhs.epsTrans ++
       [(s, ({lhs.initial, rhs.initial} : Finset String))] }, f.2)

/-- Regex AST (src/regex/ast.py). -/
inductive Expr where
  | symbol (value : String)
  | star (value : Expr)
  | concat (lhs rhs : Expr)
  | or (lhs rhs : Expr)
deriving DecidableEq

/-- Embeds `regex_to_epsnfa` (src/regex/to_epsnfa.py): one case per AST variant,
left operand built before the right one (counter threading mirrors the
evaluation order of the Python arguments). -/
def regex_to_epsnfa : Expr → Nat → EpsNFA × Nat
  | .symbol v, c => EpsNFA.fromSymbol v c
  | .star e, c =>
    let r := regex_to_epsnfa e c
    EpsNFA.star r.1 r.2
  | .concat l r, c =>
    let a := regex_to_epsnfa l c
    let b := regex_to_epsnfa r a.2
    EpsNFA.concat a.1 b.1 b.2
  | .or l r, c =>
    let a := regex_to_epsnfa l c
    let b := regex_to_epsnfa r a.2
    EpsNFA.union a.1 b.1 b.2

/-! ## Regex parser (src/regex/parser.py)

The recursive-descent parser consumes a token stream (as produced by
`lex_regex`); it is embedded over token lists, fuel-indexed to make the
recursion structural (the source's recursion terminates because every
recursive call consumes input). -/

/-- Regex tokens (`RegexTokenType` with the identifier's text inlined). -/
inductive RegexTok where
  | lparen
  | rparen
  | star
  | or
  | ident (value : String)
  | eof
deriving DecidableEq

mutual

/-- Embeds `parse_atom`: a parenthesised alternation or a symbol. -/
def parseAtom : Nat → List RegexTok → Except String (Expr × List RegexTok)
  | 0, _ => .error "out of fuel"
  | fuel + 1, .lparen :: ts =>
    match parseOr fuel ts with
    | .ok (e, .rparen :: rest) => .ok (e, rest)
    | .ok _ => .error "Expected token RPAREN"
    | .error e => .error e
  | _ + 1, .ident v :: ts => .ok (.symbol v, ts)
  | _ + 1, _ => .error "Expected token IDENT or LPAREN"

/-- Embeds `parse_star`: an atom followed by an optional `*`. -/
def parseStar : Nat → List RegexTok → Except String (Expr × List RegexTok)
  | 0, _ => .error "out of fuel"
  | fuel + 1, ts =>
    match parseAtom fuel ts with
    | .ok (e, .star :: rest) => .ok (.star e, rest)
    | .ok (e, rest) => .ok (e, rest)
    | .error e => .error e

/-- Embeds `parse_concat`: left-associative concatenation of stars. -/
def parseConcat : Nat → List RegexTok → Except String (Expr × List RegexTok)
  | 0, _ => .error "out of fuel"
  | fuel + 1, ts =>
    match parseStar fuel ts with
    | .ok (e, rest) => parseConcatLoop fuel e rest
    | .error e => .error e

/-- The `while` loop of `parse_concat`: continue while the next token is an
identifier or an opening parenthesis. -/
def parseConcatLoop : Nat → Expr → List RegexTok → Except String (Expr × List RegexTok)
  | 0, _, _ => .error "out of fuel"
  | fuel + 1, lhs, ts =>
    match ts with
    | .ident _ :: _ | .lparen :: _ =>
      match parseStar fuel ts with
      | .ok (rhs, rest) => parseConcatLoop fuel (.concat lhs rhs) rest
      | .error e => .error e
    | _ => .ok (lhs, ts)

/-- Embeds `parse_or`: left-associative alternation of concatenations. -/
def parseOr : Nat → List RegexTok → Except String (Expr × List RegexTok)
  | 0, _ => .error "out of fuel"
  | fuel + 1, ts =>
    match parseConcat fuel ts with
    | .ok (e, rest) => parseOrLoop fuel e rest
    | .error e => .error e

/-- The `while` loop of `parse_or`. -/
def parseOrLoop : Nat → Expr → List RegexTok → Except String (Expr × List RegexTok)
  | 0, _, _ => .error "out of fuel"
  | fuel + 1, lhs, .or :: ts =>
    match parseConcat fuel ts with
    | .ok (rhs, rest) => parseOrLoop fuel (.or lhs rhs) rest
    | .error e => .error e
  | _ + 1, lhs, ts => .ok (lhs, ts)

end

/-- Embeds `parse_regex`: a full alternation followed by the end-of-input token. -/
def parseRegex (fuel : Nat) (ts : List RegexTok) : Except String Expr :=
  match parseOr fuel ts with
  | .ok (e, .eof :: _) => .ok e
  | .ok _ => .error "Expected token EOF"
  | .error e => .error e

/-! ## Concrete evaluations of the pipeline defects (C1, C2, C3) -/

/-- C1: the round trip fails on the code.  `parse_regex` maps `"1*"` (tokens
`IDENT "1", STAR, EOF`) to `Star(Symbol "1")`; its epsilon-NFA accepts the
empty word, but the DFA obtained through `convert_to_nfa` and
`convert_to_dfa` rejects it (`some false`), because `convert_to_dfa` never
marks the pre-seeded initial subset as accepting.  This evaluates the code
at the failing input `r = "1*"`, `w = ""`. -/
theorem c1_roundtrip_fails_on_empty_word :
    parseRegex 9 [RegexTok.ident "1", RegexTok.star, RegexTok.eof] =
      Except.ok (Expr.star (Expr.symbol "1")) ∧
    (regex_to_epsnfa (Expr.star (Expr.symbol "1")) 0).1.accepts [] = true ∧
    (convert_to_dfa (convert_to_nfa
      (regex_to_epsnfa (Expr.star (Expr.symbol "1")) 0).1)).accepts [] = some false := by
  refine ⟨rfl, ?_, ?_⟩ <;> decide

/-- The one-state NFA over `{"0"}` whose initial state is accepting. -/
def nfaC2 : NFA :=
  { states := {"q"}
    alphabet := {"0"}
    initial := "q"
    accepting := {"q"}
    trans := [(("q", "0"), {"q"})] }

/-- C2: in `convert_to_dfa` the start set `{initial}` is pre-seeded into
`mapping` before the worklist loop and is therefore never tested against the
accepting set: here `{"q"}` intersects the NFA's accepting set, yet its DFA
state is not accepting, so the DFA rejects the empty word the NFA accepts. -/
theorem c2_start_set_never_marked_accepting :
    (({"q"} : Finset String) ∩ nfaC2.accepting).Nonempty ∧
    collapse {"q"} ∉ (convert_to_dfa nfaC2).accepting ∧
    nfaC2.accepts [] = true ∧
    (convert_to_dfa nfaC2).accepts [] = some false := by
  refine ⟨?_, ?_, ?_, ?_⟩ <;> decide

/-- Operand for C3: two states `a` (initial) and `b` (accepting), epsilon
edges `a → b` and `b → a`.  Renaming maps `a ↦ "star1"`, `b ↦ "star2"`, and
the fresh initial-and-accepting state is `"star3"`. -/
def epsC3 : EpsNFA :=
  { states := {"a", "b"}
    alphabet := {"x"}
    initial := "a"
    accepting := {"b"}
    trans := [(("a", "x"), {"b"})]
    epsTrans := [("a", {"b"}), ("b", {"a"})] }

/-- The automaton built by `EpsNFA.star` on that operand. -/
def starC3 : EpsNFA := (EpsNFA.star epsC3 0).1

/-- C3: the epsilon relation produced by `EpsNFA.star` is not the operand's
renamed relation plus `s → initial` and `acc → s`.  The claimed relation
here would be `star1 ↦ {star2}` (unchanged) and `star2 ↦ {star1, star3}`
(original target plus the new edge to `s = star3`).  Instead the code adds
an edge to `s` from every epsilon-source (`star1 ↦ {star2, star3}`) and
overwrites the accepting state's entry entirely (`star2 ↦ {star3}`, losing
`star1`).  Consequently the construction changes the recognised language:
the epsilon-NFA built for `(a*)*` rejects the word `"a"`. -/
theorem c3_star_epsilon_relation_differs :
    starC3.epsDelta "star1" = {"star2", "star3"} ∧
    starC3.epsDelta "star1" ≠ {"star2"} ∧
    starC3.epsDelta "star2" = {"star3"} ∧
    starC3.epsDelta "star2" ≠ {"star1", "star3"} ∧
    (regex_to_epsnfa (Expr.star (Expr.star (Expr.symbol "a"))) 0).1.accepts ["a"] = false := by
  refine ⟨?_, ?_, ?_, ?_, ?_⟩ <;> decide

/-! ## Automaton-spec parser (src/automaton/parser.py)

`parse_automaton` accumulates parsed transition statements into three
optional maps (DFA-style, NFA-style, epsilon) plus the `is_nfa` flag, then
performs the end-of-input checks.  The embedding models a parsed transition
statement as `(source state, optional symbol, target)` — the result of
`parse_transition` — and the accumulation as a fold that can fail
(`ParserError` becomes `Except.error`). -/

/-- The right-hand side of a transition: single state or set of states. -/
inductive Target where
  | single (s : String)
  | set (states : Finset String)
deriving DecidableEq

/-- A parsed transition statement: `(state, symbol-or-none, target)` where
`none` is the epsilon marker. -/
structure TransStmt where
  src : String
  sym : Option String
  tgt : Target
deriving DecidableEq

/-- The parser's mutable transition state: `dfa_transitions`,
`nfa_transitions`, `eps_transitions` (all initially `None`) and `is_nfa`. -/
structure TAcc where
  dfaT : Option (List ((String × String) × String))
  nfaT : Option (List ((String × String) × Finset String))
  epsT : Option (List (String × Finset String))
  is_nfa : Bool
deriving DecidableEq

/-- The initial parser state: no transitions seen. -/
def initTAcc : TAcc := ⟨none, none, none, false⟩

/-- Embeds `add_unique_entry`: default the map (`mapping or {}`), fail on a
duplicate key, otherwise insert. -/
def addUnique {κ ν : Type} [BEq κ] (m : Option (List (κ × ν))) (k : κ) (v : ν)
    (what : String) : Except String (List (κ × ν)) :=
  let l := m.getD []
  if (List.lookup k l).isSome then .error ("Multiple " ++ what ++ "s")
  else .ok (l ++ [(k, v)])

/-- Embeds `handle_transition` (src/automaton/parser.py lines 71-95): classify one
parsed transition and accumulate it, failing on style conflicts. -/
def handle_transition (acc : TAcc) (t : TransStmt) : Except String TAcc :=
  match t.sym with
  | none =>
    match t.tgt with
    | .single _ => .error "Epsilon transition must lead to a set of states"
    | .set S =>
      match addUnique acc.epsT t.src S "epsilon transition" with
      | .ok l => .ok { acc with epsT := some l, is_nfa := true }
      | .error e => .error e
  | some a =>
    match t.tgt with
    | .set S =>
      if acc.dfaT.isSome then .error "NFA transitions must lead to a set of states"
      else
        match addUnique acc.nfaT (t.src, a) S "transition" with
        | .ok l => .ok { acc with nfaT := some l, is_nfa := true }
        | .error e => .error e
    | .single q =>
      if acc.is_nfa then .error "DFA transitions must lead to a single state"
      else
        match addUnique acc.dfaT (t.src, a) q "transition" with
        | .ok l => .ok { acc with dfaT := some l }
        | .error e => .error e

/-- Fold `handle_transition` over a list of transition statements from a
given state. -/
def processFrom (acc : TAcc) : List TransStmt → Except String TAcc
  | [] => .ok acc
  | t :: ts =>
    match handle_transition acc t with
    | .ok acc1 => processFrom acc1 ts
    | .error e => .error e

/-- All transition statements of an automaton spec, processed in order. -/
def processTransitions (ts : List TransStmt) : Except String TAcc :=
  processFrom initTAcc ts

/-- A transition statement that commits the parser to the NFA/EpsNFA style:
an epsilon transition or a set-valued target. -/
def epsOrSetStyle (t : TransStmt) : Prop :=
  t.sym = none ∨ ∃ S, t.tgt = Target.set S

/-- A transition statement in the single-target (DFA) style. -/
def singleStyle (t : TransStmt) : Prop :=
  t.sym ≠ none ∧ ∃ q, t.tgt = Target.single q

instance (t : TransStmt) : Decidable (epsOrSetStyle t) := by
  unfold epsOrSetStyle
  cases t.tgt with
  | single q => exact decidable_of_iff (t.sym = none) (by simp)
  | set S => exact isTrue (Or.inr ⟨S, rfl⟩)

instance (t : TransStmt) : Decidable (singleStyle t) := by
  unfold singleStyle
  cases t.tgt with
  | single q => exact decidable_of_iff (t.sym ≠ none) (by simp)
  | set S => exact isFalse (by simp)

lemma handle_transition_ok_fields {acc acc1 : TAcc} {t : TransStmt}
    (h : handle_transition acc t = .ok acc1) :
    (acc1.is_nfa = true ↔ acc.is_nfa = true ∨ epsOrSetStyle t) ∧
    (acc1.dfaT.isSome ↔ acc.dfaT.isSome ∨ singleStyle t) := by
  obtain ⟨src, sym, tgt⟩ := t
  cases sym with
  | none =>
    cases tgt with
    | single q => exact absurd h (by simp [handle_transition])
    | set S =>
      simp only [handle_transition] at h
      cases hadd : addUnique acc.epsT src S "epsilon transition" with
      | ok l =>
        rw [hadd] at h
        simp only [Except.ok.injEq] at h
        subst h
        constructor
        · simp [epsOrSetStyle]
        · simp [singleStyle]
      | error e =>
        rw [hadd] at h
        exact absurd h (by simp)
  | some a =>
    cases tgt with
    | set S =>
      simp only [handle_transition] at h
      by_cases hdfa : acc.dfaT.isSome
      · rw [if_pos hdfa] at h
        exact absurd h (by simp)
      · rw [if_neg hdfa] at h
        cases hadd : addUnique acc.nfaT (src, a) S "transition" with
        | ok l =>
          rw [hadd] at h
          simp only [Except.ok.injEq] at h
          subst h
          constructor
          · simp [epsOrSetStyle]
          · simp only [hdfa, false_or]
            simp [singleStyle]
        | error e =>
          rw [hadd] at h
          exact absurd h (by simp)
    | single q =>
      simp only [handle_transition] at h
      by_cases hnfa : acc.is_nfa = true
      · rw [if_pos hnfa] at h
        exact absurd h (by simp)
      · rw [if_neg hnfa] at h
        cases hadd : addUnique acc.dfaT (src, a) q "transition" with
        | ok l =>
          rw [hadd] at h
          simp only [Except.ok.injEq] at h
          subst h
          constructor
          · simp only [hnfa, false_or]
            simp [epsOrSetStyle]
          · simp [singleStyle]
        | error e =>
          rw [hadd] at h
          exact absurd h (by simp)

lemma processFrom_invariant :
    ∀ (ts : List TransStmt) (acc acc1 : TAcc), processFrom acc ts = .ok acc1 →
      (acc1.is_nfa = true ↔ acc.is_nfa = true ∨ ∃ t ∈ ts, epsOrSetStyle t) ∧
      (acc1.dfaT.isSome ↔ acc.dfaT.isSome ∨ ∃ t ∈ ts, singleStyle t) := by
  intro ts
  induction ts with
  | nil =>
    intro acc acc1 h
    simp only [processFrom, Except.ok.injEq] at h
    subst h
    simp
  | cons t ts ih =>
    intro acc acc1 h
    rw [processFrom] at h
    cases hh : handle_transition acc t with
    | error e =>
      rw [hh] at h
      exact absurd h (by simp)
    | ok acc2 =>
      rw [hh] at h
      have h1 := handle_transition_ok_fields hh
      have h2 := ih acc2 acc1 h
      constructor
      · rw [h2.1, h1.1]
        simp only [List.mem_cons]
        constructor
        · rintro ((h | h) | ⟨u, hu, hs⟩)
          · exact Or.inl h
          · exact Or.inr ⟨t, Or.inl rfl, h⟩
          · exact Or.inr ⟨u, Or.inr hu, hs⟩
        · rintro (h | ⟨u, (rfl | hu), hs⟩)
          · exact Or.inl (Or.inl h)
          · exact Or.inl (Or.inr hs)
          · exact Or.inr ⟨u, hu, hs⟩
      · rw [h2.2, h1.2]
        simp only [List.mem_cons]
        constructor
        · rintro ((h | h) | ⟨u, hu, hs⟩)
          · exact Or.inl h
          · exact Or.inr ⟨t, Or.inl rfl, h⟩
          · exact Or.inr ⟨u, Or.inr hu, hs⟩
        · rintro (h | ⟨u, (rfl | hu), hs⟩)
          · exact Or.inl (Or.inl h)
          · exact Or.inl (Or.inr hs)
          · exact Or.inr ⟨u, hu, hs⟩

lemma processFrom_append (acc : TAcc) (ts : List TransStmt) (t : TransStmt) :
    processFrom acc (ts ++ [t]) =
      match processFrom acc ts with
      | .ok acc1 => handle_transition acc1 t
      | .error e => .error e := by
  induction ts generalizing acc with
  | nil =>
    show processFrom acc [t] = _
    simp only [processFrom]
    cases handle_transition acc t <;> rfl
  | cons u us ih =>
    simp only [List.cons_append, processFrom]
    cases handle_transition acc u with
    | ok acc1 => exact ih acc1
    | error e => rfl

/-- C6: the transition accumulator of `parse_automaton` rejects style
conflicts and never silently coerces.  If the statements processed so far
succeeded, then appending a symbol-labelled transition with a set-valued
target fails whenever a single-target (DFA-style) transition has already
been seen (the DFA-style map is then non-empty), and appending a
symbol-labelled transition with a single-state target fails whenever any
epsilon or set-target transition has already been seen. -/
theorem c6_style_conflict_rejected (ts : List TransStmt) (acc : TAcc)
    (s a q : String) (S : Finset String)
    (h : processTransitions ts = .ok acc) :
    ((∃ t ∈ ts, singleStyle t) →
      ∃ e, processTransitions (ts ++ [⟨s, some a, Target.set S⟩]) = .error e) ∧
    ((∃ t ∈ ts, epsOrSetStyle t) →
      ∃ e, processTransitions (ts ++ [⟨s, some a, Target.single q⟩]) = .error e) := by
  have hinv := processFrom_invariant ts initTAcc acc h
  constructor
  · intro hsingle
    have hdfa : acc.dfaT.isSome := hinv.2.mpr (by
      right
      exact hsingle)
    refine ⟨"NFA transitions must lead to a set of states", ?_⟩
    unfold processTransitions at h ⊢
    rw [processFrom_append, h]
    unfold handle_transition
    simp only [if_pos hdfa]
  · intro heps
    have hnfa : acc.is_nfa = true := hinv.1.mpr (by
      right
      exact heps)
    refine ⟨"DFA transitions must lead to a single state", ?_⟩
    unfold processTransitions at h ⊢
    rw [processFrom_append, h]
    unfold handle_transition
    simp only [if_pos hnfa]

/-- Result of `parse_automaton`: one of the three automaton classes. -/
inductive ParsedFSM where
  | dfa (d : DFA)
  | nfa (n : NFA)
  | eps (e : EpsNFA)

/-- The four spec fields (`Q`, `A`, `I`, `F`), `None` when not assigned. -/
structure AutoFields where
  states : Option (Finset String)
  alphabet : Option (Finset String)
  initial : Option String
  accepting : Option (Finset String)

/-- The end-of-input phase of `parse_automaton` (src/automaton/parser.py
lines 119-132): field checks in source order, then the transitions check
(`dfa_transitions is None and nfa_transitions is None`), then result
selection (`eps_transitions is not None` builds an `EpsNFA` with
`nfa_transitions or {}`, else `is_nfa` selects NFA or DFA).  The
constructors' own invariant validation (`FSMError`) is not modelled: no
claim concerns it, and in the claims settled here the error is raised
before any constructor runs. -/
def parseFinalize (f : AutoFields) (acc : TAcc) : Except String ParsedFSM :=
  match f.states with
  | none => .error "States not defined"
  | some Q =>
    match f.alphabet with
    | none => .error "Alphabet not defined"
    | some A =>
      match f.initial with
      | none => .error "Initial state not defined"
      | some i =>
        match f.accepting with
        | none => .error "Accepting states not defined"
        | some F =>
          if acc.dfaT.isNone && acc.nfaT.isNone then .error "Transitions not defined"
          else
            match acc.epsT with
            | some eps => .ok (.eps ⟨Q, A, i, F, acc.nfaT.getD [], eps⟩)
            | none =>
              if acc.is_nfa then .ok (.nfa ⟨Q, A, i, F, acc.nfaT.getD []⟩)
              else .ok (.dfa ⟨Q, A, i, F, acc.dfaT.getD []⟩)

/-- Embeds `parse_automaton` restricted to its transition statements, the four
`field = value;` assignments supplied directly. -/
def parse_automaton_model (f : AutoFields) (ts : List TransStmt) :
    Except String ParsedFSM :=
  match processTransitions ts with
  | .ok acc => parseFinalize f acc
  | .error e => .error e

lemma processFrom_all_eps :
    ∀ (ts : List TransStmt) (acc acc1 : TAcc), (∀ t ∈ ts, t.sym = none) →
      processFrom acc ts = .ok acc1 →
      acc1.dfaT = acc.dfaT ∧ acc1.nfaT = acc.nfaT ∧
      (acc.epsT.isSome ∨ ts ≠ [] → acc1.epsT.isSome) := by
  intro ts
  induction ts with
  | nil =>
    intro acc acc1 _ h
    simp only [processFrom, Except.ok.injEq] at h
    subst h
    refine ⟨rfl, rfl, ?_⟩
    rintro (h | h)
    · exact h
    · exact absurd rfl h
  | cons t ts ih =>
    intro acc acc1 hall h
    rw [processFrom] at h
    obtain ⟨src, sym, tgt⟩ := t
    have hsym : sym = none := hall _ (List.mem_cons_self ..)
    subst hsym
    cases hh : handle_transition acc ⟨src, none, tgt⟩ with
    | error e =>
      rw [hh] at h
      exact absurd h (by simp)
    | ok acc2 =>
      rw [hh] at h
      cases tgt with
      | single q => exact absurd hh (by simp [handle_transition])
      | set S =>
        simp only [handle_transition] at hh
        cases hadd : addUnique acc.epsT src S "epsilon transition" with
        | error e =>
          rw [hadd] at hh
          exact absurd hh (by simp)
        | ok l =>
          rw [hadd] at hh
          simp only [Except.ok.injEq] at hh
          subst hh
          have h3 := ih _ acc1 (fun u hu => hall u (List.mem_cons_of_mem _ hu)) h
          refine ⟨h3.1, h3.2.1, ?_⟩
          intro _
          exact h3.2.2 (Or.inl (by simp))

/-- C9: when all four fields are assigned and every transition statement of
the input is an epsilon transition (symbol position is the empty quoted
identifier), `parse_automaton` raises the parse failure "Transitions not
defined" instead of building an `EpsNFA` — even though the epsilon
transition map is non-empty — because the final check only looks at the
DFA-style and NFA-style maps, which are both still `None`. -/
theorem c9_only_eps_transitions_rejected (Q A F : Finset String) (i : String)
    (ts : List TransStmt) (acc : TAcc)
    (hne : ts ≠ []) (hall : ∀ t ∈ ts, t.sym = none)
    (hok : processTransitions ts = .ok acc) :
    parse_automaton_model ⟨some Q, some A, some i, some F⟩ ts =
      .error "Transitions not defined" ∧ acc.epsT.isSome := by
  have h3 := processFrom_all_eps ts initTAcc acc hall hok
  have heps : acc.epsT.isSome := h3.2.2 (Or.inr hne)
  refine ⟨?_, heps⟩
  unfold parse_automaton_model
  rw [hok]
  unfold parseFinalize
  simp [h3.1, h3.2.1, initTAcc]

/-! ## Witnesses: the theorems with hypotheses, applied at concrete inputs -/

/-- Concrete operand for the C4 witness: `cl({"p"}) = {"p"}`,
`delta("p","x") = {"q"}`, `cl({"q"}) = {"p","q"}`. -/
def epsC4w : EpsNFA :=
  { states := {"p", "q"}
    alphabet := {"x"}
    initial := "p"
    accepting := {"q"}
    trans := [(("p", "x"), {"q"})]
    epsTrans := [("q", {"p"})] }

/-- Witness for C4 at a concrete epsilon-NFA, state and symbol. -/
theorem c4_witness :
    List.lookup ("p", "x") (convert_to_nfa epsC4w).trans = some {"q", "p"} ∧
    ("p" ∈ (convert_to_nfa epsC4w).accepting ↔
      "p" ∈ epsC4w.states ∧ ((epsC4w.epsClosure {"p"}) ∩ epsC4w.accepting).Nonempty) := by
  have h := c4_convert_to_nfa_shape epsC4w
  constructor
  · rw [h.2.2.2.2.1 "p" "x" (by decide) (by decide)]
    decide
  · exact h.2.2.2.1 "p"

/-- Concrete NFA for the C5 witness. -/
def nfaC5w : NFA :=
  { states := {"p"}
    alphabet := {"x", "y"}
    initial := "p"
    accepting := {"p"}
    trans := [(("p", "x"), {"p"})] }

/-- Witness for C5 at a concrete NFA, DFA state and symbol (symbol `"y"` has
no transitions, so the successor set is empty and the entry targets the dead
state `"{}"`). -/
theorem c5_witness :
    (∃ S ∈ nfaC5w.reachList, "\x7bp\x7d" = collapse S ∧
      (("\x7bp\x7d", "y"), collapse (nfaC5w.succSet S "y")) ∈ (convert_to_dfa nfaC5w).trans ∧
      collapse (nfaC5w.succSet S "y") ∈ (convert_to_dfa nfaC5w).states) ∧
    collapse (∅ : Finset String) = "\x7b\x7d" :=
  ⟨(c5_convert_to_dfa_total nfaC5w).1 "\x7bp\x7d" (by decide) "y" (by decide),
   (c5_convert_to_dfa_total nfaC5w).2⟩

/-- Witness for C6: after one single-target transition `(p, x) -> q`, a
set-target transition is rejected; after one set-target transition, a
single-target transition is rejected. -/
theorem c6_witness :
    (∃ e, processTransitions
      ([⟨"p", some "x", Target.single "q"⟩] ++ [⟨"r", some "y", Target.set {"w"}⟩]) =
        .error e) ∧
    (∃ e, processTransitions
      ([⟨"p", some "x", Target.set {"q"}⟩] ++ [⟨"r", some "y", Target.single "w"⟩]) =
        .error e) :=
  ⟨(c6_style_conflict_rejected [⟨"p", some "x", Target.single "q"⟩]
      ⟨some [(("p", "x"), "q")], none, none, false⟩ "r" "y" "w" {"w"} rfl).1
      ⟨_, List.mem_singleton.mpr rfl, by decide⟩,
   (c6_style_conflict_rejected [⟨"p", some "x", Target.set {"q"}⟩]
      ⟨none, some [(("p", "x"), {"q"})], none, true⟩ "r" "y" "w" {"w"} rfl).2
      ⟨_, List.mem_singleton.mpr rfl, by decide⟩⟩

/-- Witness for C9: a spec with all four fields and a single epsilon
transition fails with "Transitions not defined". -/
theorem c9_witness :
    parse_automaton_model ⟨some {"p", "q"}, some {"x"}, some "p", some {"q"}⟩
      [⟨"p", none, Target.set {"q"}⟩] = .error "Transitions not defined" :=
  (c9_only_eps_transitions_rejected {"p", "q"} {"x"} {"q"} "p"
    [⟨"p", none, Target.set {"q"}⟩] ⟨none, none, some [("p", {"q"})], true⟩
    (by decide) (by decide) rfl).1

/-- Concrete DFA for the C7 witness: one transition `(p, x) -> q`, `q`
accepting but without outgoing transitions. -/
def dfaC7w : DFA :=
  { states := {"p", "q"}
    alphabet := {"x"}
    initial := "p"
    accepting := {"q"}
    trans := [(("p", "x"), "q")] }

/-- Witness for C7: on `"x"` the run succeeds in the accepting state `q`
(`some true`); on `"xx"` the second step has no entry and the lookup failure
propagates (`none`, not `some false`). -/
theorem c7_witness :
    dfaC7w.accepts ["x"] = some true ∧ dfaC7w.accepts ["x", "x"] = none := by
  constructor
  · rw [(c7_dfa_accepts_run dfaC7w ["x"]).1]
    decide
  · rw [(c7_dfa_accepts_run dfaC7w ["x", "x"]).1]
    decide

/-- Witness for C10: a missing transition entry yields the empty successor
set on a concrete NFA and epsilon-NFA. -/
theorem c10_witness :
    nfaC5w.delta "p" "z" = ∅ ∧ epsC4w.delta "p" "z" = ∅ :=
  ⟨(c10_nfa_accepts_total nfaC5w epsC4w ["z"] "p" "z").2.1 (by decide),
   (c10_nfa_accepts_total nfaC5w epsC4w ["z"] "p" "z").2.2.2 (by decide)⟩

end RC
